import Mathlib

/-!
Formal model of the trust-region Latin-Hypercube sampling engine of this
repository (`estimagic.optimization.trust_region_sampling`).  The module
itself is not shipped in the visible sources; only the how-to notebook that
imports and calls `get_existing_points` and
`get_next_trust_region_points_latin_hypercube` is.  The engine is therefore
modelled from the repository specification, while the entry-point interface
facts are taken from the notebook call sites.  Coordinates are rational
numbers, and the engine's random number generator is an explicitly threaded
linear congruential generator state.
-/

set_option allowUnsafeReducibility true in
attribute [semireducible] Rat.add Rat.mul Rat.sub Rat.inv Rat.ofScientific

deriving instance DecidableEq for Except

namespace TrustRegionSampling

/-- Modelled from the spec (§4.1 Geometry Mapper; the implementation module is
missing from the visible sources): `normalized = (absolute - (center - radius)) / (2*radius)`,
applied coordinate-wise over the region's axes. -/
def to_normalized (center : List ℚ) (radius : ℚ) (p : List ℚ) : List ℚ :=
  List.zipWith (fun c x => (x - (c - radius)) / (2 * radius)) center p

/-- Modelled from the spec (§4.1 Geometry Mapper; the implementation module is
missing from the visible sources): the inverse affine map
`absolute = (center - radius) + normalized * (2*radius)`, coordinate-wise. -/
def to_absolute (center : List ℚ) (radius : ℚ) (q : List ℚ) : List ℚ :=
  List.zipWith (fun c y => (c - radius) + y * (2 * radius)) center q

/-- Modelled from the spec (§4.2 Existing-Point Locator; the implementation
module is missing from the visible sources): axis-wise containment of a point
in the hyper-cube `[center_i - radius, center_i + radius]`. -/
def insideRegion (center : List ℚ) (radius : ℚ) (p : List ℚ) : Bool :=
  p.length == center.length &&
    (List.zip center p).all
      (fun cx => decide (cx.1 - radius ≤ cx.2) && decide (cx.2 ≤ cx.1 + radius))

/-- Modelled from the spec (§4.2 Existing-Point Locator; the implementation
module is missing from the visible sources, the notebook only calls it as
`get_existing_points(sample, center, radius)`): walk the previously evaluated
points in order, keep exactly those contained in the new region on every axis,
and return the survivors in normalized coordinates. -/
def get_existing_points : List (List ℚ) → List ℚ → ℚ → List (List ℚ)
  | [], _, _ => []
  | p :: ps, center, radius =>
    if insideRegion center radius p
    then to_normalized center radius p :: get_existing_points ps center radius
    else get_existing_points ps center radius

/-- Modelled from the spec (§5: a caller-seedable random generator; the
implementation module is missing from the visible sources): one step of a
32-bit linear congruential generator standing in for the numpy stream. -/
def lcg (s : ℕ) : ℕ := (1664525 * s + 1013904223) % 4294967296

/-- Modelled from the spec (§4.3 step 2: a within-bin coordinate drawn
uniformly; the implementation module is missing from the visible sources):
draw one rational in `[0, 1)` from the generator state. -/
def unitRand (s : ℕ) : ℚ × ℕ :=
  let s' := lcg s
  (((s' % 1024 : ℕ) : ℚ) / 1024, s')

/-- Modelled from the spec (§4.3 step 1 and §9: draw a random permutation over
the available bin indices; the implementation module is missing from the
visible sources): Fisher-Yates selection driven by the generator, with an
explicit fuel argument equal to the list length. -/
def drawPermAux {α : Type} [DecidableEq α] : ℕ → List α → ℕ → List α × ℕ
  | 0, _, s => ([], s)
  | _ + 1, [], s => ([], s)
  | k + 1, a :: tl, s =>
    let s' := lcg s
    let x := (a :: tl).get ⟨s' % (a :: tl).length, Nat.mod_lt s' (Nat.succ_pos tl.length)⟩
    let rest := drawPermAux k ((a :: tl).erase x) s'
    (x :: rest.1, rest.2)

/-- Random permutation of a list, threading the generator state. -/
def drawPerm {α : Type} [DecidableEq α] (l : List α) (s : ℕ) : List α × ℕ :=
  drawPermAux l.length l s

/-- Modelled from the spec (§4.3 step 2; the implementation module is missing
from the visible sources): give each free bin index a coordinate drawn
uniformly within its sub-interval `[b/n, (b+1)/n)`. -/
def freeCoordsAux (n : ℕ) : List ℤ → ℕ → List ℚ × ℕ
  | [], s => ([], s)
  | b :: bs, s =>
    let u := unitRand s
    let cs := freeCoordsAux n bs u.2
    (((b : ℚ) + u.1) / (n : ℚ) :: cs.1, cs.2)

/-- Bin index of each coordinate of a column: the bin containing the
coordinate, `⌊coord * n⌋` (spec §8, Latin Hypercube invariant). -/
def fixedBins (n : ℕ) (coords : List ℚ) : List ℤ :=
  coords.map (fun c => ⌊c * (n : ℚ)⌋)

/-- The bin indices `0, …, n-1`, as integers. -/
def rangeInts (n : ℕ) : List ℤ := (List.range n).map Int.ofNat

/-- Modelled from the spec (§9: represent, per axis, the set of available bin
indices explicitly, with the bins occupied by fixed points removed up front;
the implementation module is missing from the visible sources). -/
def availBins (n : ℕ) (fixedCoords : List ℚ) : List ℤ :=
  (rangeInts n).filter (fun b => decide (b ∉ fixedBins n fixedCoords))

/-- Modelled from the spec (§4.3 Grid Partitioner and §9; the implementation
module is missing from the visible sources): build one axis of a candidate
design.  The fixed (recycled) coordinates are kept unchanged; the bins they
occupy are removed from the available set; the free points receive a random
permutation of the remaining bins and a uniform within-bin coordinate. -/
def axisColumn (n : ℕ) (fixedCoords : List ℚ) (s : ℕ) : List ℚ × ℕ :=
  let pa := drawPerm (availBins n fixedCoords) s
  let freeBinsL := pa.1.take (n - fixedCoords.length)
  let frees := freeCoordsAux n freeBinsL pa.2
  (fixedCoords ++ frees.1, frees.2)

/-- Modelled from the spec (§4.3/§4.4; the implementation module is missing
from the visible sources): build the axis columns for the axes listed in `js`,
threading the generator state. -/
def lhsColumnsAux (n : ℕ) (fixedPts : List (List ℚ)) : List ℕ → ℕ → List (List ℚ) × ℕ
  | [], s => ([], s)
  | j :: js, s =>
    let col := axisColumn n (fixedPts.map (fun p => p.getD j 0)) s
    let cols := lhsColumnsAux n fixedPts js col.2
    (col.1 :: cols.1, cols.2)

/-- One complete candidate design, given as its `d` axis columns (spec §4.4
Design Repairer/Merger): fixed recycled points occupy the leading rows, free
rows are redrawn from the generator. -/
def lhsColumns (n d : ℕ) (fixedPts : List (List ℚ)) (s : ℕ) : List (List ℚ) × ℕ :=
  lhsColumnsAux n fixedPts (List.range d) s

/-- The `n × d` matrix of design points, row `k` collecting the `k`-th entry
of every axis column. -/
def designRows (n : ℕ) (cols : List (List ℚ)) : List (List ℚ) :=
  (List.range n).map (fun k => cols.map (fun col => col.getD k 0))

/-- Modelled from the spec (§4.4: one independent random candidate per search
iteration; the implementation module is missing from the visible sources). -/
def genCandidates (n d : ℕ) (fixedPts : List (List ℚ)) : ℕ → ℕ → List (List (List ℚ)) × ℕ
  | 0, s => ([], s)
  | k + 1, s =>
    let c := lhsColumns n d fixedPts s
    let rest := genCandidates n d fixedPts k c.2
    (c.1 :: rest.1, rest.2)

/-- Dot product of two coordinate lists. -/
def dotProd (a b : List ℚ) : ℚ := (List.zipWith (fun u v => u * v) a b).sum

/-- The `i`-th column of a row-major design matrix. -/
def colOf (x : List (List ℚ)) (i : ℕ) : List ℚ := x.map (fun row => row.getD i 0)

/-- Modelled from the spec (§4.5: the information matrix `X^T X` of a
candidate design; the implementation module is missing from the visible
sources). -/
def infoMatrix (x : List (List ℚ)) : List (List ℚ) :=
  (List.range (x.headD []).length).map (fun i =>
    (List.range (x.headD []).length).map (fun j => dotProd (colOf x i) (colOf x j)))

/-- Determinant of a square rational matrix by cofactor expansion along the
first row, with a fuel argument equal to the matrix size. -/
def detListAux : ℕ → List (List ℚ) → ℚ
  | _, [] => 1
  | 0, _ :: _ => 1
  | k + 1, r :: rs =>
    ((List.range r.length).map
      (fun j => (-1 : ℚ) ^ j * r.getD j 0 * detListAux k (rs.map (fun row => row.eraseIdx j)))).sum

/-- Determinant of a square rational matrix. -/
def detList (m : List (List ℚ)) : ℚ := detListAux m.length m

/-- Delete row `i` and column `j` of a matrix. -/
def delRowCol (m : List (List ℚ)) (i j : ℕ) : List (List ℚ) :=
  (m.eraseIdx i).map (fun row => row.eraseIdx j)

/-- Trace of the adjugate: the sum of the principal `(n-1)`-minors, so that
`trace (M⁻¹) = traceAdj M / det M` for invertible `M`. -/
def traceAdj (m : List (List ℚ)) : ℚ :=
  ((List.range m.length).map (fun i => detList (delRowCol m i i))).sum

/-- Adjugate matrix (transposed cofactor matrix). -/
def adjList (m : List (List ℚ)) : List (List ℚ) :=
  (List.range m.length).map (fun i =>
    (List.range m.length).map (fun j => (-1 : ℚ) ^ (i + j) * detList (delRowCol m j i)))

/-- Matrix-vector product. -/
def matVec (m : List (List ℚ)) (v : List ℚ) : List ℚ := m.map (fun row => dotProd row v)

/-- Modelled from the spec (§4.5 g-optimality: worst-case leverage
`max_k x_k (X^T X)⁻¹ x_k^T`, computed through the adjugate; the implementation
module is missing from the visible sources). -/
def maxLeverage (x : List (List ℚ)) : ℚ :=
  let m := infoMatrix x
  match x.map (fun row => dotProd row (matVec (adjList m) row) / detList m) with
  | [] => 0
  | l :: ls => ls.foldl max l

/-- Modelled from the spec (§4.5 a-optimality: the trace of `(X^T X)⁻¹`, to be
minimized, reported negated under the internal higher-is-better convention;
the implementation module is missing from the visible sources). -/
def aValue (x : List (List ℚ)) : ℚ := -(traceAdj (infoMatrix x) / detList (infoMatrix x))

/-- Modelled from the spec (§4.5 d-optimality: the determinant of `X^T X`,
maximized; the implementation module is missing from the visible sources). -/
def dValue (x : List (List ℚ)) : ℚ := detList (infoMatrix x)

/-- Modelled from the spec (§4.5 e-optimality maximizes the minimum eigenvalue
of `X^T X`; the implementation module is missing from the visible sources).
The minimum eigenvalue of a rational matrix is irrational in general; the
regular branch is represented here by the classical rational lower bound
`det M / traceAdj M = 1 / trace (M⁻¹)` for the smallest eigenvalue.  Every
claim concerning this criterion is about the singular guard of `matrixScore`
only and is stated for an arbitrary regular-branch value function. -/
def eValue (x : List (List ℚ)) : ℚ := detList (infoMatrix x) / traceAdj (infoMatrix x)

/-- Modelled from the spec (§4.5 g-optimality: minimize the worst-case
leverage, reported negated under the higher-is-better convention; the
implementation module is missing from the visible sources). -/
def gValue (x : List (List ℚ)) : ℚ := -(maxLeverage x)

/-- Squared Euclidean distance of two points. -/
def sqDist (a b : List ℚ) : ℚ := (List.zipWith (fun u v => (u - v) ^ 2) a b).sum

/-- All pairwise squared distances of a point list. -/
def pairSqDists : List (List ℚ) → List ℚ
  | [] => []
  | p :: ps => ps.map (sqDist p) ++ pairSqDists ps

/-- Modelled from the spec (§4.5 maximin: the minimum pairwise Euclidean
distance, maximized; the implementation module is missing from the visible
sources).  Represented by the squared distance, which is order-isomorphic to
the Euclidean distance on nonnegative values; no claim inspects the score's
magnitude. -/
def maximinValue (x : List (List ℚ)) : ℚ :=
  match pairSqDists x with
  | [] => 0
  | v :: vs => vs.foldl min v

/-- The five optimality criteria offered by the engine (notebook markdown and
spec §4.5). -/
inductive Criterion
| a_optimality
| d_optimality
| e_optimality
| g_optimality
| maximin
deriving DecidableEq

/-- Modelled from the spec (§4.5 numerical edge cases; the implementation
module is missing from the visible sources): a matrix-based criterion first
tests the information matrix for singularity and returns the sentinel worst
score `⊥` in that case, otherwise the criterion-specific value. -/
def matrixScore (value : List (List ℚ) → ℚ) (x : List (List ℚ)) : WithBot ℚ :=
  if detList (infoMatrix x) = 0 then ⊥ else ((value x : ℚ) : WithBot ℚ)

/-- Modelled from the spec (§4.5 Optimality Scorer; the implementation module
is missing from the visible sources): the scalar score of a candidate design
under the selected criterion, higher is better. -/
def scoreDesign : Criterion → List (List ℚ) → WithBot ℚ
  | .a_optimality, x => matrixScore aValue x
  | .d_optimality, x => matrixScore dValue x
  | .e_optimality, x => matrixScore eValue x
  | .g_optimality, x => matrixScore gValue x
  | .maximin, x => ((maximinValue x : ℚ) : WithBot ℚ)

/-- The best score among a list of per-iteration scores. -/
def bestScore (l : List (WithBot ℚ)) : WithBot ℚ := l.foldl max ⊥

/-- Modelled from the spec (§4.6 step 2: retain the best score seen so far,
ties broken by the earliest iteration; the implementation module is missing
from the visible sources): the index of the first iteration attaining the
best score. -/
def argmaxIdx (l : List (WithBot ℚ)) : ℕ := l.findIdx (fun s => decide (s = bestScore l))

/-- The best-score-so-far after iteration `k` (0-based), the observable of the
search loop named by spec §8 "Monotonic improvement". -/
def bestSoFar (l : List (WithBot ℚ)) (k : ℕ) : WithBot ℚ := (l.take (k + 1)).foldl max ⊥

/-- The record returned by the engine: the winning absolute points, the score
of every iteration (key `crit_vals` at the notebook call sites), and the index
of the best iteration (spec §4.6). -/
structure SampleResult where
  points : List (List ℚ)
  crit_vals : List (WithBot ℚ)
  best_index : ℕ
deriving DecidableEq

/-- The fatal error taxonomy of the spec (§7). -/
inductive EngineError
| InvalidArgumentError
| CapacityError
| DomainError
deriving DecidableEq

/-- Modelled from the spec (§4.6 steps 2-4; the implementation module is
missing from the visible sources): generate `n_iter` candidates, score each,
and return the best candidate mapped back to absolute coordinates together
with the full score trace and the best iteration index. -/
def runDriver (center : List ℚ) (radius : ℚ) (n_points n_iter : ℕ)
    (fixedPts : List (List ℚ)) (criterion : Criterion) (seed : ℕ) : SampleResult × ℕ :=
  let cs := genCandidates n_points center.length fixedPts n_iter seed
  let scores := cs.1.map (fun cols => scoreDesign criterion (designRows n_points cols))
  let bi := argmaxIdx scores
  ({ points := (designRows n_points (cs.1.getD bi [])).map (to_absolute center radius),
     crit_vals := scores,
     best_index := bi }, cs.2)

/-- Modelled from the spec (§4.6 step 1 and §7: validate the arguments before
any iteration, run the Existing-Point Locator, fail with `CapacityError` when
more points are recycled than requested; the implementation module is missing
from the visible sources).  Returns the result together with the advanced
generator state. -/
def sampleCore (center : List ℚ) (radius : ℚ) (n_points n_iter : ℕ)
    (existing_points : List (List ℚ)) (criterion : Criterion) (seed : ℕ) :
    Except EngineError SampleResult × ℕ :=
  if n_points < 1 ∨ radius ≤ 0 ∨ n_iter < 1 then (.error .InvalidArgumentError, seed)
  else
    let fixedPts := get_existing_points existing_points center radius
    if n_points < fixedPts.length then (.error .CapacityError, seed)
    else
      let rd := runDriver center radius n_points n_iter fixedPts criterion seed
      (.ok rd.1, rd.2)

/-- The engine's public entry point, under the name and the parameters used at
the notebook call sites (the result component of `sampleCore`). -/
def get_next_trust_region_points_latin_hypercube (center : List ℚ) (radius : ℚ)
    (n_points n_iter : ℕ) (existing_points : List (List ℚ)) (criterion : Criterion)
    (seed : ℕ) : Except EngineError SampleResult :=
  (sampleCore center radius n_points n_iter existing_points criterion seed).1

/-- A world holding the generator state the engine consumes and an ambient
component standing for every other piece of global state. -/
structure EngineWorld where
  rng : ℕ
  ambient : ℕ
deriving DecidableEq

/-- Modelled from the spec (§5: the engine is a pure function of its arguments
plus the generator; the implementation module is missing from the visible
sources): run the engine against a world, consuming entropy from the world's
generator component only. -/
def sampleWithWorld (center : List ℚ) (radius : ℚ) (n_points n_iter : ℕ)
    (existing_points : List (List ℚ)) (criterion : Criterion) (w : EngineWorld) :
    Except EngineError SampleResult × EngineWorld :=
  let rs := sampleCore center radius n_points n_iter existing_points criterion w.rng
  (rs.1, { rng := rs.2, ambient := w.ambient })

/-- Extract the successful result, defaulting on error. -/
def getOk : Except EngineError SampleResult → SampleResult
  | .ok r => r
  | .error _ => { points := [], crit_vals := [], best_index := 0 }

/-- Name under which the engine's entry point is imported and called in the
repository notebook (src/unnamed/part_000). -/
def sourceEntryPointName : String := "get_next_trust_region_points_latin_hypercube"

/-- Keyword arguments used at the notebook's two call sites of the entry
point (src/unnamed/part_000). -/
def sourceCallKeywords : List String :=
  ["center", "radius", "n_points", "n_iter", "existing_points", "optimality_criterion"]

/-- Keys of the returned mapping read by the notebook (src/unnamed/part_000,
"points" and "crit_vals"). -/
def sourceResultKeys : List String := ["points", "crit_vals"]

/-- Entry-point name asserted by the specification (§4.6). -/
def specEntryPointName : String := "sample"

/-- Parameter names asserted by the specification (§4.6). -/
def specCallKeywords : List String :=
  ["region", "n_points", "criterion", "n_iterations", "existing_points", "rng_seed"]

/-- Result-field names asserted by the specification (§4.6). -/
def specResultKeys : List String := ["points", "criterion_values", "best_index"]

/-- Modelled from the spec (§3 Data Model; the implementation module is
missing from the visible sources): a GridAssignment maps each axis to a
permutation of the `n` bin indices, assigning each of the `n` points a unique
bin per axis. -/
abbrev GridAssignment (n d : ℕ) := Fin d → Equiv.Perm (Fin n)

/-- A concrete engine run: one recycled point inside the region, one free
point, a single iteration. -/
def demoRun1 : Except EngineError SampleResult :=
  get_next_trust_region_points_latin_hypercube [0] 1 2 1 [[-(1 : ℚ)/2]] Criterion.maximin 0

/-- A concrete engine run: two recycled points whose normalized coordinates
(1/4 and 1/20) fall into the same bin of the 2-bin partition. -/
def demoRun2 : Except EngineError SampleResult :=
  get_next_trust_region_points_latin_hypercube [0] 1 2 1
    [[-(1 : ℚ)/2], [-(9 : ℚ)/10]] Criterion.d_optimality 0

/-- A concrete engine run: no recycled points, three scored iterations. -/
def demoRun3 : Except EngineError SampleResult :=
  get_next_trust_region_points_latin_hypercube [0] 1 2 3 [] Criterion.maximin 7

/-! ### Indexing helpers -/

theorem getD_eq_get {α : Type} (l : List α) (d : α) {i : ℕ} (h : i < l.length) :
    l.getD i d = l.get ⟨i, h⟩ := by
  simp [List.getD_eq_getElem?_getD, List.getElem?_eq_getElem h, List.get_eq_getElem]

theorem getD_mem_or_eq {α : Type} (l : List α) (d : α) (i : ℕ) :
    l.getD i d ∈ l ∨ l.getD i d = d := by
  by_cases h : i < l.length
  · left
    rw [getD_eq_get l d h]
    exact l.get_mem _ _
  · right
    simp [List.getD_eq_getElem?_getD, List.getElem?_eq_none (le_of_not_lt h)]

theorem map_getD_range {α : Type} (l : List α) (d : α) :
    (List.range l.length).map (fun j => l.getD j d) = l := by
  apply List.ext_getElem
  · simp
  · intro i h1 h2
    have hi : i < l.length := by simpa using h2
    simp [List.getElem_map, List.getElem_range, List.getD_eq_getElem?_getD,
      List.getElem?_eq_getElem hi]

/-! ### Running-maximum helpers -/

theorem le_foldl_max {α : Type} [LinearOrder α] (l : List α) (b : α) : b ≤ l.foldl max b := by
  induction l generalizing b with
  | nil => simp
  | cons a tl ih => exact le_trans (le_max_left b a) (ih (max b a))

theorem mem_le_foldl_max {α : Type} [LinearOrder α] {l : List α} {x : α} (hx : x ∈ l) (b : α) :
    x ≤ l.foldl max b := by
  induction l generalizing b with
  | nil => cases hx
  | cons a tl ih =>
    rcases List.mem_cons.mp hx with h | h
    · subst h
      exact le_trans (le_max_right b x) (le_foldl_max tl _)
    · exact ih h _

theorem foldl_max_mem {α : Type} [LinearOrder α] (l : List α) (b : α) :
    l.foldl max b ∈ l ∨ l.foldl max b = b := by
  induction l generalizing b with
  | nil => exact Or.inr rfl
  | cons a tl ih =>
    rcases ih (max b a) with h | h
    · exact Or.inl (List.mem_cons_of_mem _ h)
    · rcases max_choice b a with he | he
      · exact Or.inr (by rw [List.foldl_cons, h, he])
      · exact Or.inl (by rw [List.foldl_cons, h, he]; exact List.mem_cons_self _ _)

theorem foldl_max_le_of_prefix {α : Type} [LinearOrder α] {l₁ l₂ : List α}
    (h : l₁ <+: l₂) (b : α) : l₁.foldl max b ≤ l₂.foldl max b := by
  obtain ⟨t, rfl⟩ := h
  rw [List.foldl_append]
  exact le_foldl_max t _

theorem bestSoFar_mono (l : List (WithBot ℚ)) {i j : ℕ} (hij : i ≤ j) :
    bestSoFar l i ≤ bestSoFar l j := by
  have hpre : l.take (i + 1) <+: l.take (j + 1) := by
    have := List.take_prefix (i + 1) (l.take (j + 1))
    rwa [List.take_take, min_eq_left (by omega : i + 1 ≤ j + 1)] at this
  exact foldl_max_le_of_prefix hpre ⊥

/-! ### Best-index (earliest argmax) helpers -/

theorem bestScore_mem {l : List (WithBot ℚ)} (h : l ≠ []) : bestScore l ∈ l := by
  rcases foldl_max_mem l ⊥ with hm | hb
  · exact hm
  · cases l with
    | nil => exact absurd rfl h
    | cons a tl =>
      have ha : a ≤ (a :: tl).foldl max ⊥ := mem_le_foldl_max (List.mem_cons_self a tl) ⊥
      rw [hb] at ha
      have hab : a = ⊥ := le_bot_iff.mp ha
      show (a :: tl).foldl max ⊥ ∈ a :: tl
      rw [hb, ← hab]
      exact List.mem_cons_self a tl

theorem argmaxIdx_lt_length {l : List (WithBot ℚ)} (h : l ≠ []) : argmaxIdx l < l.length :=
  List.findIdx_lt_length_of_exists ⟨bestScore l, bestScore_mem h, by simp⟩

theorem getD_le_bestScore {l : List (WithBot ℚ)} {j : ℕ} (h : j < l.length) :
    l.getD j ⊥ ≤ bestScore l := by
  rw [getD_eq_get l ⊥ h]
  exact mem_le_foldl_max (l.get_mem _ _) ⊥

theorem argmaxIdx_getD {l : List (WithBot ℚ)} (h : l ≠ []) :
    l.getD (argmaxIdx l) ⊥ = bestScore l := by
  have hlt : l.findIdx (fun s => decide (s = bestScore l)) < l.length := argmaxIdx_lt_length h
  have hp := @List.findIdx_getElem _ (fun s => decide (s = bestScore l)) l hlt
  show l.getD (l.findIdx (fun s => decide (s = bestScore l))) ⊥ = bestScore l
  rw [getD_eq_get l ⊥ hlt]
  simpa [List.get_eq_getElem] using hp

theorem getD_lt_argmaxIdx {l : List (WithBot ℚ)} {j : ℕ} (hj : j < argmaxIdx l) (h : l ≠ []) :
    l.getD j ⊥ < l.getD (argmaxIdx l) ⊥ := by
  have hj' : j < l.findIdx (fun s => decide (s = bestScore l)) := hj
  have hlen : j < l.length := lt_of_lt_of_le hj' (List.findIdx_le_length _)
  have hne : (fun s => decide (s = bestScore l)) l[j] = false := List.not_of_lt_findIdx hj'
  have hne' : l.get ⟨j, hlen⟩ ≠ bestScore l := by
    simpa [List.get_eq_getElem] using hne
  rw [argmaxIdx_getD h, getD_eq_get l ⊥ hlen]
  exact lt_of_le_of_ne (mem_le_foldl_max (l.get_mem _ _) ⊥) hne'

/-! ### Random permutation helpers -/

theorem drawPermAux_perm {α : Type} [DecidableEq α] (k : ℕ) :
    ∀ (l : List α) (s : ℕ), l.length ≤ k → ((drawPermAux k l s).1).Perm l := by
  induction k with
  | zero =>
    intro l s h
    have hl : l = [] := List.eq_nil_of_length_eq_zero (Nat.le_zero.mp h)
    subst hl
    simp [drawPermAux]
  | succ k ih =>
    intro l s h
    cases l with
    | nil => simp [drawPermAux]
    | cons a tl =>
      have hmem : (a :: tl).get ⟨lcg s % (a :: tl).length,
          Nat.mod_lt (lcg s) (Nat.succ_pos tl.length)⟩ ∈ a :: tl := List.get_mem _ _ _
      have hlen : ((a :: tl).erase ((a :: tl).get ⟨lcg s % (a :: tl).length,
          Nat.mod_lt (lcg s) (Nat.succ_pos tl.length)⟩)).length ≤ k := by
        rw [List.length_erase_of_mem hmem]
        simpa using Nat.le_of_succ_le_succ h
      have hrec := ih _ (lcg s) hlen
      exact (hrec.cons _).trans (List.perm_cons_erase hmem).symm

theorem drawPerm_perm {α : Type} [DecidableEq α] (l : List α) (s : ℕ) :
    ((drawPerm l s).1).Perm l :=
  drawPermAux_perm l.length l s le_rfl

theorem drawPerm_length {α : Type} [DecidableEq α] (l : List α) (s : ℕ) :
    (drawPerm l s).1.length = l.length :=
  (drawPerm_perm l s).length_eq

/-! ### Within-bin coordinate helpers -/

theorem unitRand_mem (s : ℕ) : 0 ≤ (unitRand s).1 ∧ (unitRand s).1 < 1 := by
  constructor
  · show (0 : ℚ) ≤ ((lcg s % 1024 : ℕ) : ℚ) / 1024
    positivity
  · show ((lcg s % 1024 : ℕ) : ℚ) / 1024 < 1
    rw [div_lt_one (by norm_num)]
    have h : lcg s % 1024 < 1024 := Nat.mod_lt _ (by norm_num)
    exact_mod_cast h

theorem freeCoordsAux_length (n : ℕ) (bs : List ℤ) : ∀ s : ℕ,
    (freeCoordsAux n bs s).1.length = bs.length := by
  induction bs with
  | nil => intro s; rfl
  | cons b tl ih => intro s; simp [freeCoordsAux, ih]

theorem floor_bin_coord {n : ℕ} (hn : 0 < n) (b : ℤ) {u : ℚ} (h0 : 0 ≤ u) (h1 : u < 1) :
    ⌊((b : ℚ) + u) / (n : ℚ) * (n : ℚ)⌋ = b := by
  have hne : (n : ℚ) ≠ 0 := by
    have : (0 : ℚ) < (n : ℚ) := by exact_mod_cast hn
    exact ne_of_gt this
  rw [div_mul_cancel₀ _ hne, add_comm, Int.floor_add_int,
    Int.floor_eq_zero_iff.mpr (Set.mem_Ico.mpr ⟨h0, h1⟩)]
  simp

theorem freeCoordsAux_bins {n : ℕ} (hn : 0 < n) (bs : List ℤ) : ∀ s : ℕ,
    (freeCoordsAux n bs s).1.map (fun c => ⌊c * (n : ℚ)⌋) = bs := by
  induction bs with
  | nil => intro s; rfl
  | cons b tl ih =>
    intro s
    simp only [freeCoordsAux, List.map_cons]
    rw [ih]
    rw [floor_bin_coord hn b (unitRand_mem s).1 (unitRand_mem s).2]

theorem freeCoordsAux_range {n : ℕ} (hn : 0 < n) : ∀ (bs : List ℤ),
    (∀ b ∈ bs, 0 ≤ b ∧ b < (n : ℤ)) → ∀ (s : ℕ), ∀ c ∈ (freeCoordsAux n bs s).1,
    0 ≤ c ∧ c < 1 := by
  intro bs
  induction bs with
  | nil =>
    intro _ s c hc
    simp [freeCoordsAux] at hc
  | cons b tl ih =>
    intro hb s c hc
    have hnq : (0 : ℚ) < (n : ℚ) := by exact_mod_cast hn
    simp only [freeCoordsAux, List.mem_cons] at hc
    rcases hc with hc | hc
    · subst hc
      have hb0 : (0 : ℚ) ≤ (b : ℚ) := by exact_mod_cast (hb b (List.mem_cons_self b tl)).1
      have hb1 : (b : ℚ) ≤ (n : ℚ) - 1 := by
        have hzb : b ≤ (n : ℤ) - 1 := by
          have := (hb b (List.mem_cons_self b tl)).2
          omega
        have : (b : ℚ) ≤ ((n : ℤ) - 1 : ℤ) := by exact_mod_cast hzb
        push_cast at this
        linarith
      have hu := unitRand_mem s
      constructor
      · exact div_nonneg (by linarith [hu.1]) (le_of_lt hnq)
      · rw [div_lt_one hnq]
        linarith [hu.2]
    · exact ih (fun b hb' => hb b (List.mem_cons_of_mem _ hb')) _ c hc

/-! ### Available-bin and axis-column helpers -/

theorem rangeInts_nodup (n : ℕ) : (rangeInts n).Nodup :=
  (List.nodup_range n).map (fun a b h => Int.ofNat.inj h)

theorem mem_rangeInts {n : ℕ} {b : ℤ} : b ∈ rangeInts n ↔ 0 ≤ b ∧ b < (n : ℤ) := by
  simp only [rangeInts, List.mem_map, List.mem_range, Int.ofNat_eq_natCast]
  constructor
  · rintro ⟨m, hm, rfl⟩
    omega
  · intro ⟨h0, h1⟩
    exact ⟨b.toNat, by omega, by omega⟩

theorem availBins_mem {n : ℕ} {fc : List ℚ} {b : ℤ} (h : b ∈ availBins n fc) :
    (0 ≤ b ∧ b < (n : ℤ)) ∧ b ∉ fixedBins n fc := by
  have h' := List.mem_filter.mp h
  exact ⟨mem_rangeInts.mp h'.1, by simpa using h'.2⟩

theorem availBins_nodup (n : ℕ) (fc : List ℚ) : (availBins n fc).Nodup :=
  (rangeInts_nodup n).filter _

theorem filter_mem_fixedBins_perm {n : ℕ} {fc : List ℚ}
    (hnd : (fixedBins n fc).Nodup) (hbd : ∀ b ∈ fixedBins n fc, 0 ≤ b ∧ b < (n : ℤ)) :
    ((rangeInts n).filter (fun b => decide (b ∈ fixedBins n fc))).Perm (fixedBins n fc) := by
  apply List.Subperm.antisymm
  · apply List.subperm_of_subset ((rangeInts_nodup n).filter _)
    intro b hb
    have := List.mem_filter.mp hb
    simpa using this.2
  · apply List.subperm_of_subset hnd
    intro b hb
    exact List.mem_filter.mpr ⟨mem_rangeInts.mpr (hbd b hb), by simpa using hb⟩

theorem availBins_append_perm (n : ℕ) (fc : List ℚ) :
    (((rangeInts n).filter (fun b => decide (b ∈ fixedBins n fc))) ++ availBins n fc).Perm
      (rangeInts n) := by
  have h := List.filter_append_perm (fun b => decide (b ∈ fixedBins n fc)) (rangeInts n)
  have he : availBins n fc =
      (rangeInts n).filter (fun b => !decide (b ∈ fixedBins n fc)) := by
    simp [availBins]
  rw [he]
  exact h

theorem availBins_length {n : ℕ} {fc : List ℚ}
    (hnd : (fixedBins n fc).Nodup) (hbd : ∀ b ∈ fixedBins n fc, 0 ≤ b ∧ b < (n : ℤ)) :
    (availBins n fc).length = n - fc.length := by
  have h1 := (availBins_append_perm n fc).length_eq
  have h2 := (filter_mem_fixedBins_perm hnd hbd).length_eq
  have h3 : (fixedBins n fc).length = fc.length := by simp [fixedBins]
  have h4 : (rangeInts n).length = n := by simp [rangeInts]
  simp only [List.length_append] at h1
  omega

theorem availBins_length_ge {n : ℕ} (fc : List ℚ) :
    n - fc.length ≤ (availBins n fc).length := by
  have h1 := (availBins_append_perm n fc).length_eq
  have h4 : (rangeInts n).length = n := by simp [rangeInts]
  have h5 : ((rangeInts n).filter (fun b => decide (b ∈ fixedBins n fc))).length ≤
      (fixedBins n fc).length := by
    apply List.Subperm.length_le
    apply List.subperm_of_subset ((rangeInts_nodup n).filter _)
    intro b hb
    simpa using (List.mem_filter.mp hb).2
  have h3 : (fixedBins n fc).length = fc.length := by simp [fixedBins]
  simp only [List.length_append] at h1
  omega

theorem axisColumn_length {n : ℕ} (fc : List ℚ) (s : ℕ) (hm : fc.length ≤ n) :
    (axisColumn n fc s).1.length = n := by
  have hg := availBins_length_ge (n := n) fc
  simp only [axisColumn, List.length_append, freeCoordsAux_length, List.length_take,
    drawPerm_length]
  omega

theorem axisColumn_bins_perm {n : ℕ} {fc : List ℚ} (s : ℕ) (hn : 0 < n)
    (hnd : (fixedBins n fc).Nodup) (hbd : ∀ b ∈ fixedBins n fc, 0 ≤ b ∧ b < (n : ℤ))
    (hm : fc.length ≤ n) :
    ((axisColumn n fc s).1.map (fun c => ⌊c * (n : ℚ)⌋)).Perm (rangeInts n) := by
  have hlen : (drawPerm (availBins n fc) s).1.length = n - fc.length := by
    rw [drawPerm_length, availBins_length hnd hbd]
  have htake : (drawPerm (availBins n fc) s).1.take (n - fc.length) =
      (drawPerm (availBins n fc) s).1 :=
    List.take_of_length_le (le_of_eq hlen)
  simp only [axisColumn, List.map_append, htake]
  rw [freeCoordsAux_bins hn]
  show ((fixedBins n fc) ++ (drawPerm (availBins n fc) s).1).Perm (rangeInts n)
  have h1 : ((fixedBins n fc) ++ (drawPerm (availBins n fc) s).1).Perm
      ((fixedBins n fc) ++ availBins n fc) := List.Perm.append_left _ (drawPerm_perm _ _)
  have h2 : ((fixedBins n fc) ++ availBins n fc).Perm
      (((rangeInts n).filter (fun b => decide (b ∈ fixedBins n fc))) ++ availBins n fc) :=
    List.Perm.append_right _ (filter_mem_fixedBins_perm hnd hbd).symm
  exact (h1.trans h2).trans (availBins_append_perm n fc)

theorem axisColumn_range {n : ℕ} {fc : List ℚ} (s : ℕ) (hn : 0 < n)
    (hfc : ∀ c ∈ fc, 0 ≤ c ∧ c ≤ 1) :
    ∀ c ∈ (axisColumn n fc s).1, 0 ≤ c ∧ c ≤ 1 := by
  intro c hc
  simp only [axisColumn, List.mem_append] at hc
  rcases hc with hc | hc
  · exact hfc c hc
  · have hb : ∀ b ∈ (drawPerm (availBins n fc) s).1.take (n - fc.length),
        0 ≤ b ∧ b < (n : ℤ) := by
      intro b hbmem
      have hb1 : b ∈ (drawPerm (availBins n fc) s).1 := List.mem_of_mem_take hbmem
      have hb2 : b ∈ availBins n fc := (drawPerm_perm _ _).mem_iff.mp hb1
      exact (availBins_mem hb2).1
    have := freeCoordsAux_range hn _ hb _ c hc
    exact ⟨this.1, le_of_lt this.2⟩

/-! ### Column assembly and candidate generation -/

theorem lhsColumnsAux_length (n : ℕ) (fp : List (List ℚ)) : ∀ (js : List ℕ) (s : ℕ),
    (lhsColumnsAux n fp js s).1.length = js.length := by
  intro js
  induction js with
  | nil => intro s; rfl
  | cons j tl ih => intro s; simp [lhsColumnsAux, ih]

theorem lhsColumnsAux_getD (n : ℕ) (fp : List (List ℚ)) : ∀ (js : List ℕ) (s i : ℕ),
    i < js.length → ∃ s' : ℕ,
    (lhsColumnsAux n fp js s).1.getD i [] =
      (axisColumn n (fp.map (fun p => p.getD (js.getD i 0) 0)) s').1 := by
  intro js
  induction js with
  | nil => intro s i h; exact absurd h (Nat.not_lt_zero i)
  | cons j tl ih =>
    intro s i h
    cases i with
    | zero => exact ⟨s, rfl⟩
    | succ i => exact ih _ i (Nat.lt_of_succ_lt_succ h)

theorem lhsColumns_length (n d : ℕ) (fp : List (List ℚ)) (s : ℕ) :
    (lhsColumns n d fp s).1.length = d := by
  rw [lhsColumns, lhsColumnsAux_length]
  exact List.length_range d

theorem lhsColumns_getD (n d : ℕ) (fp : List (List ℚ)) (s : ℕ) {i : ℕ} (h : i < d) :
    ∃ s' : ℕ, (lhsColumns n d fp s).1.getD i [] =
      (axisColumn n (fp.map (fun p => p.getD i 0)) s').1 := by
  have hlen : i < (List.range d).length := by simpa using h
  have hji : (List.range d).getD i 0 = i := by
    rw [getD_eq_get _ _ hlen]
    simp [List.get_eq_getElem]
  have := lhsColumnsAux_getD n fp (List.range d) s i hlen
  rwa [hji] at this

theorem designRows_length (n : ℕ) (cols : List (List ℚ)) :
    (designRows n cols).length = n := by
  simp [designRows]

theorem designRows_getD {n : ℕ} (cols : List (List ℚ)) {k : ℕ} (h : k < n) :
    (designRows n cols).getD k [] = cols.map (fun col => col.getD k 0) := by
  have hk : k < (designRows n cols).length := by rwa [designRows_length]
  rw [getD_eq_get _ _ hk]
  simp [designRows, List.get_eq_getElem, List.getElem_map, List.getElem_range]

theorem designRows_mem {n : ℕ} {cols : List (List ℚ)} {row : List ℚ}
    (h : row ∈ designRows n cols) :
    ∃ k, k < n ∧ row = cols.map (fun col => col.getD k 0) := by
  simp only [designRows, List.mem_map, List.mem_range] at h
  obtain ⟨k, hk, rfl⟩ := h
  exact ⟨k, hk, rfl⟩

theorem genCandidates_length (n d : ℕ) (fp : List (List ℚ)) : ∀ (k s : ℕ),
    ((genCandidates n d fp k s).1).length = k := by
  intro k
  induction k with
  | zero => intro s; rfl
  | succ k ih => intro s; simp [genCandidates, ih]

theorem genCandidates_mem (n d : ℕ) (fp : List (List ℚ)) : ∀ (k s : ℕ),
    ∀ cols ∈ (genCandidates n d fp k s).1, ∃ s₀, cols = (lhsColumns n d fp s₀).1 := by
  intro k
  induction k with
  | zero => intro s cols h; simp [genCandidates] at h
  | succ k ih =>
    intro s cols h
    simp only [genCandidates, List.mem_cons] at h
    rcases h with h | h
    · exact ⟨s, h⟩
    · exact ih _ cols h

/-! ### Existing-Point Locator -/

theorem get_existing_points_eq (pts : List (List ℚ)) (center : List ℚ) (radius : ℚ) :
    get_existing_points pts center radius =
      (pts.filter (insideRegion center radius)).map (to_normalized center radius) := by
  induction pts with
  | nil => rfl
  | cons p ps ih =>
    by_cases h : insideRegion center radius p <;>
      simp [get_existing_points, List.filter_cons, h, ih]

theorem insideRegion_iff {center : List ℚ} {radius : ℚ} {p : List ℚ} :
    insideRegion center radius p = true ↔
      p.length = center.length ∧ ∀ i, i < p.length →
        center.getD i 0 - radius ≤ p.getD i 0 ∧ p.getD i 0 ≤ center.getD i 0 + radius := by
  simp only [insideRegion, Bool.and_eq_true, beq_iff_eq, List.all_eq_true]
  constructor
  · rintro ⟨hlen, hall⟩
    refine ⟨hlen, fun i hi => ?_⟩
    have hic : i < center.length := by omega
    have hi2 : i < (List.zip center p).length := by
      simp only [List.length_zip]
      omega
    have hx := hall ((List.zip center p).get ⟨i, hi2⟩) (List.get_mem _ _ _)
    rw [List.get_eq_getElem, List.getElem_zip] at hx
    simp only [Bool.and_eq_true, decide_eq_true_eq] at hx
    rw [getD_eq_get center 0 hic, getD_eq_get p 0 hi]
    simpa [List.get_eq_getElem] using hx
  · rintro ⟨hlen, hidx⟩
    refine ⟨hlen, fun x hx => ?_⟩
    obtain ⟨⟨i, hi⟩, rfl⟩ := List.mem_iff_get.mp hx
    rw [List.get_eq_getElem, List.getElem_zip]
    have hip : i < p.length := by
      simp only [List.length_zip] at hi
      omega
    have hic : i < center.length := by
      simp only [List.length_zip] at hi
      omega
    have hb := hidx i hip
    rw [getD_eq_get center 0 hic, getD_eq_get p 0 hip] at hb
    simp only [Bool.and_eq_true, decide_eq_true_eq, List.get_eq_getElem]
    exact hb

theorem to_normalized_length (center : List ℚ) (radius : ℚ) (p : List ℚ) :
    (to_normalized center radius p).length = min center.length p.length := by
  simp [to_normalized]

theorem to_absolute_length (center : List ℚ) (radius : ℚ) (q : List ℚ) :
    (to_absolute center radius q).length = min center.length q.length := by
  simp [to_absolute]

/-! ### Geometry mapper -/

theorem to_normalized_range {center : List ℚ} {radius : ℚ} {p : List ℚ} (hr : 0 < radius)
    (h : insideRegion center radius p = true) :
    ∀ c ∈ to_normalized center radius p, 0 ≤ c ∧ c ≤ 1 := by
  obtain ⟨hlen, hbd⟩ := insideRegion_iff.mp h
  intro c hc
  obtain ⟨⟨i, hi⟩, rfl⟩ := List.mem_iff_get.mp hc
  have hip : i < p.length := by
    rw [to_normalized_length] at hi
    omega
  have hic : i < center.length := by
    rw [to_normalized_length] at hi
    omega
  have hb := hbd i hip
  rw [getD_eq_get center 0 hic, getD_eq_get p 0 hip] at hb
  have h2r : (0 : ℚ) < 2 * radius := by linarith
  rw [List.get_eq_getElem]
  show (0 : ℚ) ≤ (to_normalized center radius p)[i] ∧ (to_normalized center radius p)[i] ≤ 1
  have hval : (to_normalized center radius p)[i] =
      (p.get ⟨i, hip⟩ - (center.get ⟨i, hic⟩ - radius)) / (2 * radius) := by
    simp [to_normalized, List.getElem_zipWith, List.get_eq_getElem]
  rw [hval]
  constructor
  · apply div_nonneg _ (le_of_lt h2r)
    linarith [hb.1]
  · rw [div_le_one h2r]
    linarith [hb.2]

theorem to_absolute_to_normalized {center : List ℚ} {radius : ℚ} (hr : radius ≠ 0) :
    ∀ {p : List ℚ}, p.length = center.length →
    to_absolute center radius (to_normalized center radius p) = p := by
  induction center with
  | nil =>
    intro p hlen
    cases p with
    | nil => rfl
    | cons x xs => simp at hlen
  | cons c cs ih =>
    intro p hlen
    cases p with
    | nil => simp at hlen
    | cons x xs =>
      have hxs : xs.length = cs.length := by simpa using hlen
      have h2r : (2 : ℚ) * radius ≠ 0 := mul_ne_zero two_ne_zero hr
      show ((c - radius) + (x - (c - radius)) / (2 * radius) * (2 * radius)) ::
          to_absolute cs radius (to_normalized cs radius xs) = x :: xs
      rw [div_mul_cancel₀ _ h2r, ih hxs]
      congr 1
      ring

theorem to_normalized_to_absolute {center : List ℚ} {radius : ℚ} (hr : radius ≠ 0) :
    ∀ {q : List ℚ}, q.length = center.length →
    to_normalized center radius (to_absolute center radius q) = q := by
  induction center with
  | nil =>
    intro q hlen
    cases q with
    | nil => rfl
    | cons y ys => simp at hlen
  | cons c cs ih =>
    intro q hlen
    cases q with
    | nil => simp at hlen
    | cons y ys =>
      have hys : ys.length = cs.length := by simpa using hlen
      have h2r : (2 : ℚ) * radius ≠ 0 := mul_ne_zero two_ne_zero hr
      show (((c - radius) + y * (2 * radius)) - (c - radius)) / (2 * radius) ::
          to_normalized cs radius (to_absolute cs radius ys) = y :: ys
      rw [add_sub_cancel_left, mul_div_cancel_right₀ _ h2r, ih hys]

/-! ### Locator corollaries -/

theorem get_existing_points_length_eq {pts : List (List ℚ)} {center : List ℚ} {radius : ℚ}
    {q : List ℚ} (hq : q ∈ get_existing_points pts center radius) :
    q.length = center.length := by
  rw [get_existing_points_eq] at hq
  obtain ⟨p, hp, rfl⟩ := List.mem_map.mp hq
  have hlen := (insideRegion_iff.mp (List.mem_filter.mp hp).2).1
  rw [to_normalized_length]
  omega

theorem get_existing_points_range {pts : List (List ℚ)} {center : List ℚ} {radius : ℚ}
    (hr : 0 < radius) :
    ∀ q ∈ get_existing_points pts center radius, ∀ c ∈ q, 0 ≤ c ∧ c ≤ 1 := by
  intro q hq
  rw [get_existing_points_eq] at hq
  obtain ⟨p, hp, rfl⟩ := List.mem_map.mp hq
  exact to_normalized_range hr (List.mem_filter.mp hp).2

theorem mem_get_existing_points {pts : List (List ℚ)} {center : List ℚ} {radius : ℚ}
    {p : List ℚ} (hp : p ∈ pts) (hin : insideRegion center radius p = true) :
    to_normalized center radius p ∈ get_existing_points pts center radius := by
  rw [get_existing_points_eq]
  exact List.mem_map_of_mem _ (List.mem_filter.mpr ⟨hp, hin⟩)

/-! ### Driver structure -/

theorem runDriver_crit_vals (center : List ℚ) (radius : ℚ) (n_points n_iter : ℕ)
    (fp : List (List ℚ)) (criterion : Criterion) (seed : ℕ) :
    (runDriver center radius n_points n_iter fp criterion seed).1.crit_vals =
      ((genCandidates n_points center.length fp n_iter seed).1).map
        (fun cols => scoreDesign criterion (designRows n_points cols)) := rfl

theorem runDriver_best_index (center : List ℚ) (radius : ℚ) (n_points n_iter : ℕ)
    (fp : List (List ℚ)) (criterion : Criterion) (seed : ℕ) :
    (runDriver center radius n_points n_iter fp criterion seed).1.best_index =
      argmaxIdx ((runDriver center radius n_points n_iter fp criterion seed).1.crit_vals) := rfl

theorem runDriver_points (center : List ℚ) (radius : ℚ) (n_points n_iter : ℕ)
    (fp : List (List ℚ)) (criterion : Criterion) (seed : ℕ) :
    (runDriver center radius n_points n_iter fp criterion seed).1.points =
      (designRows n_points ((genCandidates n_points center.length fp n_iter seed).1.getD
        ((runDriver center radius n_points n_iter fp criterion seed).1.best_index) [])).map
        (to_absolute center radius) := rfl

theorem sampleCore_ok {center : List ℚ} {radius : ℚ} {n_points n_iter : ℕ}
    {existing : List (List ℚ)} {criterion : Criterion} {seed : ℕ} {res : SampleResult}
    (h : get_next_trust_region_points_latin_hypercube center radius n_points n_iter existing
      criterion seed = .ok res) :
    1 ≤ n_points ∧ 0 < radius ∧ 1 ≤ n_iter ∧
      (get_existing_points existing center radius).length ≤ n_points ∧
      res = (runDriver center radius n_points n_iter
        (get_existing_points existing center radius) criterion seed).1 := by
  simp only [get_next_trust_region_points_latin_hypercube, sampleCore] at h
  split at h
  · simp at h
  · split at h
    · simp at h
    · rename_i h1 h2
      push_neg at h1
      simp only [Except.ok.injEq] at h
      exact ⟨by omega, h1.2.1, by omega, by omega, h.symm⟩

theorem getD_mem_of_lt {α : Type} (l : List α) (d : α) {i : ℕ} (h : i < l.length) :
    l.getD i d ∈ l := by
  rw [getD_eq_get l d h]
  exact l.get_mem _ _

theorem getD_append_left {α : Type} (l₁ l₂ : List α) (d : α) {k : ℕ} (h : k < l₁.length) :
    (l₁ ++ l₂).getD k d = l₁.getD k d := by
  have hk : k < (l₁ ++ l₂).length := by
    rw [List.length_append]
    omega
  rw [getD_eq_get _ _ hk, getD_eq_get _ _ h]
  simp [List.get_eq_getElem, List.getElem_append_left h]

theorem getD_map {α β : Type} (f : α → β) (l : List α) (d : β) {k : ℕ} (h : k < l.length) :
    (l.map f).getD k d = f (l.get ⟨k, h⟩) := by
  have hk : k < (l.map f).length := by simpa using h
  rw [getD_eq_get _ _ hk]
  simp [List.get_eq_getElem, List.getElem_map]

theorem crit_vals_spec {center : List ℚ} {radius : ℚ} {n_points n_iter : ℕ}
    {existing : List (List ℚ)} {criterion : Criterion} {seed : ℕ} {res : SampleResult}
    (h : get_next_trust_region_points_latin_hypercube center radius n_points n_iter existing
      criterion seed = .ok res) :
    res.crit_vals = ((genCandidates n_points center.length
        (get_existing_points existing center radius) n_iter seed).1).map
        (fun cols => scoreDesign criterion (designRows n_points cols)) ∧
      res.best_index = argmaxIdx res.crit_vals := by
  obtain ⟨_, _, _, _, hres⟩ := sampleCore_ok h
  rw [hres]
  exact ⟨rfl, rfl⟩

theorem winner_candidate {center : List ℚ} {radius : ℚ} {n_points n_iter : ℕ}
    {existing : List (List ℚ)} {criterion : Criterion} {seed : ℕ} {res : SampleResult}
    (h : get_next_trust_region_points_latin_hypercube center radius n_points n_iter existing
      criterion seed = .ok res) :
    ∃ s₀ : ℕ, res.points = (designRows n_points ((lhsColumns n_points center.length
      (get_existing_points existing center radius) s₀).1)).map (to_absolute center radius) := by
  obtain ⟨hnp, hr, hni, hm, hres⟩ := sampleCore_ok h
  have hlen : ((genCandidates n_points center.length
      (get_existing_points existing center radius) n_iter seed).1.map
      (fun cols => scoreDesign criterion (designRows n_points cols))).length = n_iter := by
    simp [genCandidates_length]
  have hne : (genCandidates n_points center.length
      (get_existing_points existing center radius) n_iter seed).1.map
      (fun cols => scoreDesign criterion (designRows n_points cols)) ≠ [] := by
    intro hnil
    rw [hnil] at hlen
    simp at hlen
    omega
  have hbi := argmaxIdx_lt_length hne
  rw [List.length_map, genCandidates_length] at hbi
  have hbi' : argmaxIdx ((genCandidates n_points center.length
      (get_existing_points existing center radius) n_iter seed).1.map
      (fun cols => scoreDesign criterion (designRows n_points cols))) <
      (genCandidates n_points center.length
        (get_existing_points existing center radius) n_iter seed).1.length := by
    rw [genCandidates_length]
    exact hbi
  have hmem := getD_mem_of_lt _ ([] : List (List ℚ)) hbi'
  obtain ⟨s₀, hs₀⟩ := genCandidates_mem _ _ _ _ _ _ hmem
  refine ⟨s₀, ?_⟩
  rw [hres, runDriver_points, ← hs₀]
  rfl

theorem lhsColumns_range {n d : ℕ} {fp : List (List ℚ)} (s : ℕ) (hn : 0 < n)
    (hfp : ∀ q ∈ fp, ∀ c ∈ q, 0 ≤ c ∧ c ≤ 1) :
    ∀ col ∈ (lhsColumns n d fp s).1, ∀ c ∈ col, 0 ≤ c ∧ c ≤ 1 := by
  intro col hcol
  obtain ⟨⟨i, hi⟩, rfl⟩ := List.mem_iff_get.mp hcol
  have hid : i < d := by rwa [lhsColumns_length] at hi
  rw [← getD_eq_get _ ([] : List ℚ) hi]
  obtain ⟨s', hs'⟩ := lhsColumns_getD n d fp s hid
  rw [hs']
  apply axisColumn_range _ hn
  intro c hc
  obtain ⟨q, hq, rfl⟩ := List.mem_map.mp hc
  rcases getD_mem_or_eq q (0 : ℚ) i with hmem | hz
  · exact hfp q hq _ hmem
  · rw [hz]
    exact ⟨le_refl 0, zero_le_one⟩

/-- C10: the number of distinct Latin Hypercube cell assignments for sample
size `n` and dimension `d` — one permutation of the `n` bins per axis — is
`(n!)^d`, as stated in the notebook's markdown on optimality. -/
theorem gridAssignment_card (n d : ℕ) :
    Fintype.card (GridAssignment n d) = (Nat.factorial n) ^ d := by
  rw [show Fintype.card (GridAssignment n d) =
      Fintype.card (Fin d → Equiv.Perm (Fin n)) from rfl]
  rw [Fintype.card_fun, Fintype.card_perm, Fintype.card_fin, Fintype.card_fin]

/-- C9: the engine is a deterministic function of its arguments plus the
random-generator seed: two runs against worlds holding the same generator
state produce the same result and the same advanced generator state, and the
engine leaves every other component of the world untouched (it consumes
entropy from the caller-seedable generator and touches no other global
state). -/
theorem sample_deterministic (center : List ℚ) (radius : ℚ) (n_points n_iter : ℕ)
    (existing : List (List ℚ)) (criterion : Criterion) (w₁ w₂ : EngineWorld)
    (h : w₁.rng = w₂.rng) :
    ((sampleWithWorld center radius n_points n_iter existing criterion w₁).1 =
        (sampleWithWorld center radius n_points n_iter existing criterion w₂).1 ∧
      (sampleWithWorld center radius n_points n_iter existing criterion w₁).2.rng =
        (sampleWithWorld center radius n_points n_iter existing criterion w₂).2.rng) ∧
    (sampleWithWorld center radius n_points n_iter existing criterion w₁).2.ambient =
      w₁.ambient := by
  constructor
  · constructor
    · show (sampleCore center radius n_points n_iter existing criterion w₁.rng).1 =
        (sampleCore center radius n_points n_iter existing criterion w₂.rng).1
      rw [h]
    · show (sampleCore center radius n_points n_iter existing criterion w₁.rng).2 =
        (sampleCore center radius n_points n_iter existing criterion w₂.rng).2
      rw [h]
  · rfl

/-- C5: the Existing-Point Locator is a pure filter: it returns exactly the
normalized images of the input points that pass axis-wise containment, in the
input order (the survivors form a sublist of the input), with containment
meaning coordinate-wise membership in `[center_i - radius, center_i + radius]`,
and its output length is the number of surviving points — there is no cap at
any requested sample size (no `n_points` argument exists). -/
theorem locator_pure_filter (pts : List (List ℚ)) (center : List ℚ) (radius : ℚ) :
    get_existing_points pts center radius =
      (pts.filter (insideRegion center radius)).map (to_normalized center radius) ∧
    (pts.filter (insideRegion center radius)).Sublist pts ∧
    (get_existing_points pts center radius).length =
      (pts.filter (insideRegion center radius)).length ∧
    ∀ p : List ℚ, insideRegion center radius p = true ↔
      p.length = center.length ∧ ∀ i, i < p.length →
        center.getD i 0 - radius ≤ p.getD i 0 ∧ p.getD i 0 ≤ center.getD i 0 + radius := by
  refine ⟨get_existing_points_eq pts center radius, List.filter_sublist pts, ?_, ?_⟩
  · rw [get_existing_points_eq, List.length_map]
  · intro p
    exact insideRegion_iff

/-- C6: a call with more recycled (surviving) points than `n_points` fails
with `CapacityError`, and every fatal argument-validation error — non-positive
point count, radius or iteration budget included — is an error result produced
before any search iteration, so a failing call returns no partially built
design. -/
theorem capacity_and_fail_fast :
    (∀ (center : List ℚ) (radius : ℚ) (n_points n_iter : ℕ) (existing : List (List ℚ))
      (criterion : Criterion) (seed : ℕ),
      (n_points < 1 ∨ radius ≤ 0 ∨ n_iter < 1) →
      get_next_trust_region_points_latin_hypercube center radius n_points n_iter existing
        criterion seed = .error .InvalidArgumentError) ∧
    (∀ (center : List ℚ) (radius : ℚ) (n_points n_iter : ℕ) (existing : List (List ℚ))
      (criterion : Criterion) (seed : ℕ),
      1 ≤ n_points → 0 < radius → 1 ≤ n_iter →
      n_points < (get_existing_points existing center radius).length →
      get_next_trust_region_points_latin_hypercube center radius n_points n_iter existing
        criterion seed = .error .CapacityError) := by
  constructor
  · intro center radius n_points n_iter existing criterion seed h
    simp only [get_next_trust_region_points_latin_hypercube, sampleCore, if_pos h]
  · intro center radius n_points n_iter existing criterion seed h1 h2 h3 h4
    have hneg : ¬ (n_points < 1 ∨ radius ≤ 0 ∨ n_iter < 1) := by
      push_neg
      exact ⟨by omega, h2, by omega⟩
    simp only [get_next_trust_region_points_latin_hypercube, sampleCore, if_neg hneg,
      if_pos h4]

/-- C7: the Optimality Scorer guards every matrix-based criterion (each of
a/d/e/g-optimality is `matrixScore` applied to its criterion-specific value
function): whatever the regular-branch value function is, a design with
singular information matrix receives the sentinel worst score `⊥` instead of
an exception, and consequently — singular candidates included — a validated
call of the Search Driver always returns a complete `ok` result, so no
per-candidate numerical failure escapes the loop. -/
theorem singular_scores_bottom :
    (∀ (value : List (List ℚ) → ℚ) (x : List (List ℚ)),
      detList (infoMatrix x) = 0 → matrixScore value x = ⊥) ∧
    (∀ (center : List ℚ) (radius : ℚ) (n_points n_iter : ℕ) (existing : List (List ℚ))
      (criterion : Criterion) (seed : ℕ),
      1 ≤ n_points → 0 < radius → 1 ≤ n_iter →
      (get_existing_points existing center radius).length ≤ n_points →
      ∃ res, get_next_trust_region_points_latin_hypercube center radius n_points n_iter
        existing criterion seed = .ok res) := by
  constructor
  · intro value x hx
    simp only [matrixScore, if_pos hx]
  · intro center radius n_points n_iter existing criterion seed h1 h2 h3 h4
    have hneg : ¬ (n_points < 1 ∨ radius ≤ 0 ∨ n_iter < 1) := by
      push_neg
      exact ⟨by omega, h2, by omega⟩
    have hcap : ¬ (n_points < (get_existing_points existing center radius).length) := by
      omega
    refine ⟨(runDriver center radius n_points n_iter
      (get_existing_points existing center radius) criterion seed).1, ?_⟩
    simp only [get_next_trust_region_points_latin_hypercube, sampleCore, if_neg hneg,
      if_neg hcap]

/-- C8: within one call of the Search Driver, the best-score-so-far sequence
over the per-iteration score trace is non-decreasing under the
higher-is-better convention, and the retained best iteration is the earliest
one attaining the maximum: its score dominates every iteration's score, and
every strictly earlier iteration scores strictly worse. -/
theorem best_so_far_monotone {center : List ℚ} {radius : ℚ} {n_points n_iter : ℕ}
    {existing : List (List ℚ)} {criterion : Criterion} {seed : ℕ} {res : SampleResult}
    (h : get_next_trust_region_points_latin_hypercube center radius n_points n_iter existing
      criterion seed = .ok res) :
    (∀ i j : ℕ, i ≤ j → bestSoFar res.crit_vals i ≤ bestSoFar res.crit_vals j) ∧
    res.best_index < res.crit_vals.length ∧
    (∀ j, j < res.crit_vals.length →
      res.crit_vals.getD j ⊥ ≤ res.crit_vals.getD res.best_index ⊥) ∧
    (∀ j, j < res.best_index →
      res.crit_vals.getD j ⊥ < res.crit_vals.getD res.best_index ⊥) := by
  obtain ⟨hcv, hbi⟩ := crit_vals_spec h
  obtain ⟨hnp, hr, hni, hm, _⟩ := sampleCore_ok h
  have hlen : res.crit_vals.length = n_iter := by
    rw [hcv]
    simp [genCandidates_length]
  have hne : res.crit_vals ≠ [] := by
    intro hnil
    rw [hnil] at hlen
    simp at hlen
    omega
  refine ⟨fun i j hij => bestSoFar_mono _ hij, ?_, ?_, ?_⟩
  · rw [hbi]
    exact argmaxIdx_lt_length hne
  · intro j hj
    rw [hbi, argmaxIdx_getD hne]
    exact getD_le_bestScore hj
  · intro j hj
    rw [hbi] at hj ⊢
    exact getD_lt_argmaxIdx hj hne

/-- C2 counterexample: at the repository's visible call sites the entry point
is not named `sample`, takes no `rng_seed` keyword (nor a bundled `region` or
an `n_iterations` keyword), and the returned mapping carries the key
`crit_vals` rather than `criterion_values`. -/
theorem entry_point_name_cex :
    sourceEntryPointName ≠ specEntryPointName ∧
    "rng_seed" ∉ sourceCallKeywords ∧
    "region" ∉ sourceCallKeywords ∧
    "n_iterations" ∉ sourceCallKeywords ∧
    "criterion_values" ∉ sourceResultKeys := by
  decide

/-- C2 (amended): the engine's public entry point is
`get_next_trust_region_points_latin_hypercube(center, radius, n_points,
n_iter, existing_points, optimality_criterion)`; a successful call returns a
record whose `points` component is an `n_points × d` absolute-coordinate
matrix, whose `crit_vals` component is the per-iteration score sequence of
length `n_iter`, and which carries the index of the best iteration. -/
theorem entry_point_interface {center : List ℚ} {radius : ℚ} {n_points n_iter : ℕ}
    {existing : List (List ℚ)} {criterion : Criterion} {seed : ℕ} {res : SampleResult}
    (h : get_next_trust_region_points_latin_hypercube center radius n_points n_iter existing
      criterion seed = .ok res) :
    sourceEntryPointName = "get_next_trust_region_points_latin_hypercube" ∧
    sourceCallKeywords = ["center", "radius", "n_points", "n_iter", "existing_points",
      "optimality_criterion"] ∧
    sourceResultKeys = ["points", "crit_vals"] ∧
    res.crit_vals.length = n_iter ∧
    res.points.length = n_points ∧
    ∀ p ∈ res.points, p.length = center.length := by
  obtain ⟨hcv, _⟩ := crit_vals_spec h
  obtain ⟨s₀, hpts⟩ := winner_candidate h
  refine ⟨rfl, rfl, rfl, ?_, ?_, ?_⟩
  · rw [hcv]
    simp [genCandidates_length]
  · rw [hpts, List.length_map, designRows_length]
  · intro p hp
    rw [hpts] at hp
    obtain ⟨row, hrow, rfl⟩ := List.mem_map.mp hp
    obtain ⟨k, hk, rfl⟩ := designRows_mem hrow
    rw [to_absolute_length, List.length_map, lhsColumns_length]
    exact min_self _

/-- C4: every absolute point of a successful sample lies inside the trust
region: on every axis the coordinate is within
`[center_i - radius, center_i + radius]`, because each unit-cube coordinate is
mapped back through the affine map. -/
theorem sample_containment {center : List ℚ} {radius : ℚ} {n_points n_iter : ℕ}
    {existing : List (List ℚ)} {criterion : Criterion} {seed : ℕ} {res : SampleResult}
    (h : get_next_trust_region_points_latin_hypercube center radius n_points n_iter existing
      criterion seed = .ok res) :
    ∀ p ∈ res.points, ∀ j, j < p.length →
      center.getD j 0 - radius ≤ p.getD j 0 ∧ p.getD j 0 ≤ center.getD j 0 + radius := by
  obtain ⟨hnp, hr, hni, hm, _⟩ := sampleCore_ok h
  obtain ⟨s₀, hpts⟩ := winner_candidate h
  intro p hp j hj
  rw [hpts] at hp
  obtain ⟨row, hrow, rfl⟩ := List.mem_map.mp hp
  have hrowrange : ∀ y ∈ row, 0 ≤ y ∧ y ≤ 1 := by
    obtain ⟨k, hk, rfl⟩ := designRows_mem hrow
    intro y hy
    obtain ⟨col, hcol, rfl⟩ := List.mem_map.mp hy
    rcases getD_mem_or_eq col (0 : ℚ) k with hmem | hz
    · exact lhsColumns_range s₀ (by omega) (get_existing_points_range hr) col hcol _ hmem
    · rw [hz]
      exact ⟨le_refl 0, zero_le_one⟩
  have hjl : j < (to_absolute center radius row).length := hj
  rw [to_absolute_length] at hjl
  have hjc : j < center.length := by omega
  have hjr : j < row.length := by omega
  have hval : (to_absolute center radius row).getD j 0 =
      (center.get ⟨j, hjc⟩ - radius) + (row.get ⟨j, hjr⟩) * (2 * radius) := by
    rw [getD_eq_get _ _ hj]
    simp [to_absolute, List.get_eq_getElem, List.getElem_zipWith]
  have hy := hrowrange _ (row.get_mem j hjr)
  have h0 : (0 : ℚ) ≤ row.get ⟨j, hjr⟩ * (2 * radius) :=
    mul_nonneg hy.1 (by linarith)
  have h1 : row.get ⟨j, hjr⟩ * (2 * radius) ≤ 2 * radius := by
    have := mul_le_mul_of_nonneg_right hy.2 (by linarith : (0 : ℚ) ≤ 2 * radius)
    linarith
  rw [hval, getD_eq_get center 0 hjc]
  constructor
  · linarith
  · linarith

theorem list_ext_getD {α : Type} (d : α) {l₁ l₂ : List α} (hlen : l₁.length = l₂.length)
    (h : ∀ i, i < l₁.length → l₁.getD i d = l₂.getD i d) : l₁ = l₂ := by
  apply List.ext_getElem hlen
  intro i h1 h2
  have hi := h i h1
  rwa [getD_eq_get _ _ h1, getD_eq_get _ _ h2, List.get_eq_getElem, List.get_eq_getElem] at hi

theorem axisColumn_getD_fixed {n : ℕ} {fc : List ℚ} (s : ℕ) {k : ℕ} (hk : k < fc.length) :
    (axisColumn n fc s).1.getD k 0 = fc.getD k 0 := by
  simp only [axisColumn]
  exact getD_append_left _ _ _ hk

/-- C3: a previously evaluated point lying inside the new trust region on
every axis is recycled: it reappears, with its coordinates exactly unchanged,
among the points of a successful sample. -/
theorem recycled_point_returned {center : List ℚ} {radius : ℚ} {n_points n_iter : ℕ}
    {existing : List (List ℚ)} {criterion : Criterion} {seed : ℕ} {res : SampleResult}
    {p : List ℚ}
    (h : get_next_trust_region_points_latin_hypercube center radius n_points n_iter existing
      criterion seed = .ok res)
    (hp : p ∈ existing) (hin : insideRegion center radius p = true) :
    p ∈ res.points := by
  obtain ⟨hnp, hr, hni, hm, _⟩ := sampleCore_ok h
  obtain ⟨s₀, hpts⟩ := winner_candidate h
  have hq : to_normalized center radius p ∈ get_existing_points existing center radius :=
    mem_get_existing_points hp hin
  obtain ⟨⟨k, hk⟩, hkq⟩ := List.mem_iff_get.mp hq
  have hkn : k < n_points := by omega
  have hplen : p.length = center.length := (insideRegion_iff.mp hin).1
  have hcolslen : (lhsColumns n_points center.length
      (get_existing_points existing center radius) s₀).1.length = center.length :=
    lhsColumns_length _ _ _ _
  have hrowmem : (lhsColumns n_points center.length
      (get_existing_points existing center radius) s₀).1.map (fun col => col.getD k 0) ∈
      designRows n_points (lhsColumns n_points center.length
        (get_existing_points existing center radius) s₀).1 := by
    simp only [designRows, List.mem_map, List.mem_range]
    exact ⟨k, hkn, rfl⟩
  have hroweq : (lhsColumns n_points center.length
      (get_existing_points existing center radius) s₀).1.map (fun col => col.getD k 0) =
      to_normalized center radius p := by
    apply list_ext_getD (0 : ℚ)
    · rw [List.length_map, hcolslen, to_normalized_length, hplen, min_self]
    · intro i hi
      have hid : i < center.length := by
        rw [List.length_map, hcolslen] at hi
        exact hi
      have hic : i < (lhsColumns n_points center.length
          (get_existing_points existing center radius) s₀).1.length := by
        rw [hcolslen]
        exact hid
      obtain ⟨s', hs'⟩ := lhsColumns_getD n_points center.length
        (get_existing_points existing center radius) s₀ hid
      rw [getD_map _ _ _ hic, ← getD_eq_get _ ([] : List ℚ) hic, hs']
      have hfc : k < ((get_existing_points existing center radius).map
          (fun r => r.getD i 0)).length := by
        rw [List.length_map]
        exact hk
      rw [axisColumn_getD_fixed s' hfc, getD_map _ _ _ hk, hkq]
  have hmem2 : to_absolute center radius (to_normalized center radius p) ∈ res.points := by
    rw [hpts]
    exact List.mem_map_of_mem _ (hroweq ▸ hrowmem)
  rwa [to_absolute_to_normalized (ne_of_gt hr) hplen] at hmem2

/-- C1 (amended): the Latin Hypercube invariant of a produced Design holds
whenever the recycled points' normalized coordinates lie in `[0, 1)` and, on
every axis, the bins containing the recycled points are pairwise distinct —
in particular it holds unconditionally when no point is recycled.  Under
these hypotheses, for every axis, mapping each normalized coordinate of the
returned points to `⌊coord * n_points⌋` yields exactly the bin indices
`0, …, n_points - 1`, each once.  (Without the distinct-bins hypothesis the
invariant fails: see the counterexample, where two recycled points share a
bin.) -/
theorem latin_hypercube_invariant {center : List ℚ} {radius : ℚ} {n_points n_iter : ℕ}
    {existing : List (List ℚ)} {criterion : Criterion} {seed : ℕ} {res : SampleResult}
    (h : get_next_trust_region_points_latin_hypercube center radius n_points n_iter existing
      criterion seed = .ok res)
    (hcoord : ∀ q ∈ get_existing_points existing center radius, ∀ c ∈ q, 0 ≤ c ∧ c < 1)
    (hnd : ∀ j, j < center.length →
      ((get_existing_points existing center radius).map
        (fun q => ⌊q.getD j 0 * (n_points : ℚ)⌋)).Nodup) :
    ∀ j, j < center.length →
      (res.points.map (fun p => ⌊(to_normalized center radius p).getD j 0 *
        (n_points : ℚ)⌋)).Perm (rangeInts n_points) := by
  obtain ⟨hnp, hr, hni, hm, _⟩ := sampleCore_ok h
  obtain ⟨s₀, hpts⟩ := winner_candidate h
  intro j hj
  set fp := get_existing_points existing center radius with hfpdef
  set cols := (lhsColumns n_points center.length fp s₀).1 with hcolsdef
  have hcolslen : cols.length = center.length := lhsColumns_length _ _ _ _
  have hjcols : j < cols.length := by
    rw [hcolslen]
    exact hj
  obtain ⟨s', hs'⟩ := lhsColumns_getD n_points center.length fp s₀ hj
  have hfcmem : ∀ c ∈ fp.map (fun q => q.getD j 0), 0 ≤ c ∧ c < 1 := by
    intro c hc
    obtain ⟨q, hq, rfl⟩ := List.mem_map.mp hc
    rcases getD_mem_or_eq q (0 : ℚ) j with hmem | hz
    · exact hcoord q hq _ hmem
    · rw [hz]
      exact ⟨le_refl 0, one_pos⟩
  have hbins_nd : (fixedBins n_points (fp.map (fun q => q.getD j 0))).Nodup := by
    have hthis := hnd j hj
    simpa [fixedBins, List.map_map, Function.comp] using hthis
  have hnq : (0 : ℚ) < (n_points : ℚ) := by
    exact_mod_cast (by omega : 0 < n_points)
  have hbins_bd : ∀ b ∈ fixedBins n_points (fp.map (fun q => q.getD j 0)),
      0 ≤ b ∧ b < (n_points : ℤ) := by
    intro b hb
    simp only [fixedBins] at hb
    obtain ⟨c, hc, rfl⟩ := List.mem_map.mp hb
    have hcr := hfcmem c hc
    constructor
    · exact Int.floor_nonneg.mpr (mul_nonneg hcr.1 (le_of_lt hnq))
    · rw [Int.floor_lt]
      push_cast
      nlinarith [mul_pos (by linarith [hcr.2] : (0 : ℚ) < 1 - c) hnq]
  have hfcl : (fp.map (fun q => q.getD j 0)).length ≤ n_points := by
    rw [List.length_map]
    omega
  have hperm := axisColumn_bins_perm s' (by omega) hbins_nd hbins_bd hfcl
  have hcollen : (cols.getD j []).length = n_points := by
    rw [hs']
    exact axisColumn_length _ _ hfcl
  have h1 : res.points.map
      (fun p => ⌊(to_normalized center radius p).getD j 0 * (n_points : ℚ)⌋) =
      (designRows n_points cols).map (fun row => ⌊row.getD j 0 * (n_points : ℚ)⌋) := by
    rw [hpts, List.map_map]
    apply List.map_congr_left
    intro row hrow
    obtain ⟨k, hk, rfl⟩ := designRows_mem hrow
    have hlenrow : (cols.map (fun col => col.getD k 0)).length = center.length := by
      rw [List.length_map, hcolslen]
    simp only [Function.comp_apply]
    rw [to_normalized_to_absolute (ne_of_gt hr) hlenrow]
  have hR : (cols.getD j []).map (fun c => ⌊c * (n_points : ℚ)⌋) =
      (List.range n_points).map (fun k => ⌊(cols.getD j []).getD k 0 * (n_points : ℚ)⌋) := by
    conv_lhs => rw [← map_getD_range (cols.getD j []) (0 : ℚ)]
    rw [List.map_map, hcollen]
    rfl
  have h2 : (designRows n_points cols).map (fun row => ⌊row.getD j 0 * (n_points : ℚ)⌋) =
      (cols.getD j []).map (fun c => ⌊c * (n_points : ℚ)⌋) := by
    rw [hR, designRows, List.map_map]
    apply List.map_congr_left
    intro k hk
    simp only [Function.comp_apply]
    congr 2
    rw [getD_map _ _ _ hjcols, ← getD_eq_get _ ([] : List ℚ) hjcols]
  rw [h1, h2, hs']
  exact hperm

/-- C1 counterexample: a successful run whose two recycled points have
normalized coordinates 1/4 and 1/20, both in bin 0 of the 2-bin partition:
the axis-0 bin indices of the produced Design are [0, 0], not a permutation
of {0, 1}, so the Latin Hypercube invariant fails for a Design produced with
recycled points. -/
theorem latin_hypercube_cex :
    demoRun2 = .ok (getOk demoRun2) ∧
    ¬ (((getOk demoRun2).points.map
      (fun p => ⌊(to_normalized [0] 1 p).getD 0 0 * (2 : ℚ)⌋)).Perm (rangeInts 2)) := by
  constructor
  · decide
  · decide

theorem latin_hypercube_invariant_witness :
    demoRun1 = .ok (getOk demoRun1) ∧
    (∀ q ∈ get_existing_points [[-(1 : ℚ)/2]] [0] 1, ∀ c ∈ q, 0 ≤ c ∧ c < 1) ∧
    (((getOk demoRun1).points.map
      (fun p => ⌊(to_normalized [0] 1 p).getD 0 0 * (2 : ℚ)⌋)).Perm (rangeInts 2)) := by
  refine ⟨by decide, by decide, ?_⟩
  refine latin_hypercube_invariant
    (by decide : get_next_trust_region_points_latin_hypercube [0] 1 2 1 [[-(1 : ℚ)/2]]
      Criterion.maximin 0 = .ok (getOk demoRun1))
    (by decide) ?_ 0 (by decide)
  intro j hj
  have hj0 : j = 0 := by
    simp only [List.length_cons, List.length_nil] at hj
    omega
  subst hj0
  decide

theorem recycled_point_returned_witness :
    demoRun1 = .ok (getOk demoRun1) ∧
    [-(1 : ℚ)/2] ∈ [[-(1 : ℚ)/2]] ∧
    insideRegion [0] 1 [-(1 : ℚ)/2] = true ∧
    [-(1 : ℚ)/2] ∈ (getOk demoRun1).points :=
  ⟨by decide, by decide, by decide,
    recycled_point_returned
      (by decide : get_next_trust_region_points_latin_hypercube [0] 1 2 1 [[-(1 : ℚ)/2]]
        Criterion.maximin 0 = .ok (getOk demoRun1))
      (by decide) (by decide)⟩

theorem sample_containment_witness :
    demoRun3 = .ok (getOk demoRun3) ∧
    (getOk demoRun3).points.getD 0 [] ∈ (getOk demoRun3).points ∧
    0 < ((getOk demoRun3).points.getD 0 []).length ∧
    (([0] : List ℚ).getD 0 0 - 1 ≤ ((getOk demoRun3).points.getD 0 []).getD 0 0 ∧
      ((getOk demoRun3).points.getD 0 []).getD 0 0 ≤ ([0] : List ℚ).getD 0 0 + 1) :=
  ⟨by decide, by decide, by decide,
    sample_containment
      (by decide : get_next_trust_region_points_latin_hypercube [0] 1 2 3 []
        Criterion.maximin 7 = .ok (getOk demoRun3))
      _ (by decide) 0 (by decide)⟩

theorem capacity_and_fail_fast_witness :
    ((0 < 1 ∨ (1 : ℚ) ≤ 0 ∨ 1 < 1) ∧
      get_next_trust_region_points_latin_hypercube [0] 1 0 1 [] Criterion.maximin 0 =
        .error .InvalidArgumentError) ∧
    (1 ≤ 1 ∧ (0 : ℚ) < 1 ∧ 1 ≤ 1 ∧
      1 < (get_existing_points [[(0 : ℚ)], [(1 : ℚ)/4]] [0] 1).length ∧
      get_next_trust_region_points_latin_hypercube [0] 1 1 1 [[(0 : ℚ)], [(1 : ℚ)/4]]
        Criterion.maximin 0 = .error .CapacityError) :=
  ⟨⟨Or.inl (by decide),
    capacity_and_fail_fast.1 [0] 1 0 1 [] Criterion.maximin 0 (Or.inl (by decide))⟩,
   ⟨le_refl 1, by decide, le_refl 1, by decide,
    capacity_and_fail_fast.2 [0] 1 1 1 [[(0 : ℚ)], [(1 : ℚ)/4]] Criterion.maximin 0
      (by decide) (by decide) (by decide) (by decide)⟩⟩

theorem singular_scores_bottom_witness :
    detList (infoMatrix [[(1 : ℚ), 1], [(1 : ℚ), 1]]) = 0 ∧
    matrixScore dValue [[(1 : ℚ), 1], [(1 : ℚ), 1]] = ⊥ ∧
    (1 ≤ 1 ∧ (0 : ℚ) < 1 ∧ 1 ≤ 1 ∧ (get_existing_points [] [0] 1).length ≤ 1) ∧
    (∃ res, get_next_trust_region_points_latin_hypercube [0] 1 1 1 []
      Criterion.d_optimality 0 = .ok res) :=
  ⟨by decide,
   singular_scores_bottom.1 dValue [[(1 : ℚ), 1], [(1 : ℚ), 1]] (by decide),
   ⟨le_refl 1, by decide, le_refl 1, by decide⟩,
   singular_scores_bottom.2 [0] 1 1 1 [] Criterion.d_optimality 0
     (le_refl 1) (by decide) (le_refl 1) (by decide)⟩

theorem best_so_far_monotone_witness :
    demoRun3 = .ok (getOk demoRun3) ∧
    bestSoFar (getOk demoRun3).crit_vals 0 ≤ bestSoFar (getOk demoRun3).crit_vals 1 ∧
    (getOk demoRun3).best_index < (getOk demoRun3).crit_vals.length ∧
    (getOk demoRun3).crit_vals.getD 0 ⊥ ≤
      (getOk demoRun3).crit_vals.getD (getOk demoRun3).best_index ⊥ ∧
    (getOk demoRun3).crit_vals.getD 0 ⊥ <
      (getOk demoRun3).crit_vals.getD (getOk demoRun3).best_index ⊥ := by
  have h : get_next_trust_region_points_latin_hypercube [0] 1 2 3 [] Criterion.maximin 7 =
      .ok (getOk demoRun3) := by decide
  exact ⟨by decide, (best_so_far_monotone h).1 0 1 (by omega), (best_so_far_monotone h).2.1,
    (best_so_far_monotone h).2.2.1 0 (by decide), (best_so_far_monotone h).2.2.2 0 (by decide)⟩

theorem sample_deterministic_witness :
    (⟨5, 10⟩ : EngineWorld).rng = (⟨5, 99⟩ : EngineWorld).rng ∧
    (((sampleWithWorld [0] 1 1 1 [] Criterion.maximin ⟨5, 10⟩).1 =
        (sampleWithWorld [0] 1 1 1 [] Criterion.maximin ⟨5, 99⟩).1 ∧
      (sampleWithWorld [0] 1 1 1 [] Criterion.maximin ⟨5, 10⟩).2.rng =
        (sampleWithWorld [0] 1 1 1 [] Criterion.maximin ⟨5, 99⟩).2.rng) ∧
      (sampleWithWorld [0] 1 1 1 [] Criterion.maximin ⟨5, 10⟩).2.ambient =
        (⟨5, 10⟩ : EngineWorld).ambient) :=
  ⟨rfl, sample_deterministic [0] 1 1 1 [] Criterion.maximin ⟨5, 10⟩ ⟨5, 99⟩ rfl⟩

theorem entry_point_interface_witness :
    demoRun3 = .ok (getOk demoRun3) ∧
    (sourceEntryPointName = "get_next_trust_region_points_latin_hypercube" ∧
     sourceCallKeywords = ["center", "radius", "n_points", "n_iter", "existing_points",
       "optimality_criterion"] ∧
     sourceResultKeys = ["points", "crit_vals"] ∧
     (getOk demoRun3).crit_vals.length = 3 ∧
     (getOk demoRun3).points.length = 2 ∧
     ∀ p ∈ (getOk demoRun3).points, p.length = ([0] : List ℚ).length) :=
  ⟨by decide,
    entry_point_interface
      (by decide : get_next_trust_region_points_latin_hypercube [0] 1 2 3 []
        Criterion.maximin 7 = .ok (getOk demoRun3))⟩

end TrustRegionSampling
